import Mathlib

set_option maxHeartbeats 1000000
set_option maxRecDepth 8000

/- Verification of the scrutiny-devtools header rewriter (codebanner.py) and
   line-counting tool (codestats.py) against their natural-language
   specification.  Python strings are modelled as lists of characters;
   a file's content is a list of such lines (as produced by readlines:
   every line keeps its trailing newline except possibly the last). -/

abbrev Str := List Char

/-- Whitespace as recognised by the regex class \s and by str.strip,
restricted to the ASCII whitespace characters relevant to these tools. -/
def pyWs (c : Char) : Bool :=
  c == ' ' || c == '\t' || c == '\n' || c == '\r' || c == '\x0b' || c == '\x0c'

/-- Decidable prefix test on character lists (str.startswith). -/
def pfx : Str → Str → Bool
  | [], _ => true
  | _ :: _, [] => false
  | a :: p, b :: s => a == b && pfx p s

/-- Decidable suffix test on character lists (str.endswith). -/
def sfx (n h : Str) : Bool := pfx n.reverse h.reverse

/-- Python str.strip (leading and trailing whitespace removed). -/
def pyStrip (s : Str) : Str := ((s.dropWhile pyWs).reverse.dropWhile pyWs).reverse

/-- Python str.split on a single newline character: splits at every
occurrence, keeping empty segments. -/
def splitNl : Str → List Str
  | [] => [[]]
  | c :: t => if c = '\n' then [] :: splitNl t else (splitNl t).modifyHead (c :: ·)

/-- Python str.replace of a newline by a newline followed by the string
ins, as used by format_docstring. -/
def repNl (ins : Str) : Str → Str
  | [] => []
  | c :: t => if c = '\n' then '\n' :: (ins ++ repNl ins t) else c :: repNl ins t

/-- Joins chunk bodies, terminating each one with a newline: the string
built by the successive new_header concatenations in write_docstring. -/
def joinLines (bs : List Str) : Str := bs.foldr (fun b acc => b ++ '\n' :: acc) []

/-- Python newline-join of a list of strings. -/
def joinListNl : List Str → Str
  | [] => []
  | [l] => l
  | l :: rest => l ++ '\n' :: joinListNl rest

/-- The string contains no newline character. -/
def noNl (s : Str) : Prop := '\n' ∉ s

instance (s : Str) : Decidable (noNl s) := by unfold noNl; infer_instance

/-- Number of leading lines matched by one of the given patterns: the size
of the removable leading comment block found by write_docstring when the
language has no skip patterns. -/
def leadCount (ps : List (Str → Bool)) : List Str → Nat
  | [] => 0
  | l :: t => if ps.any (fun p => p l) then leadCount ps t + 1 else 0

/-- Decimal digit character. -/
def digitChar (d : Nat) : Char :=
  (['0', '1', '2', '3', '4', '5', '6', '7', '8', '9']).getD d '9'

/-- Decimal rendering of a natural number (the str() applied to the year
returned by get_first_edit_year). -/
def natToStrGo : Nat → Nat → Str → Str
  | 0, _, acc => acc
  | fuel + 1, n, acc =>
    if n < 10 then digitChar n :: acc
    else natToStrGo fuel (n / 10) (digitChar (n % 10) :: acc)

def natToStr (n : Nat) : Str := natToStrGo (n + 1) n []

deriving instance DecidableEq for Except

namespace Codestats

/-- Enum MultileCommentToken of codestats.py (name kept from the source). -/
inductive MultileCommentToken
  | START
  | END
  | NONE
deriving DecidableEq

/-- Enum Language of codestats.py. -/
inductive Language
  | UNKOWN
  | TYPESCRIPT
  | PYTHON
  | JAVASCRIPT
  | HTML
  | CSS
  | CPP
  | C
  | CMAKE
  | JSON
  | MARKDOWN
  | JENKINS
  | DOCKER
  | BASH
  | BATCHFILE
deriving DecidableEq

/-- Enum LineType of codestats.py. -/
inductive LineType
  | COMMENT
  | CODE
  | BLANK
deriving DecidableEq

/-- Python str.rfind for a substring needle: index of its last occurrence,
none when the needle does not occur (Python returns -1). -/
def rfindSub (hay needle : Str) : Option Nat :=
  ((List.range (hay.length + 1)).filter (fun i => pfx needle (hay.drop i))).getLast?

/-- First alternative of the C-family comment regex applied by
get_line_type to the stripped line: after optional whitespace, a double
slash followed by at least one character other than a newline. -/
def cLineRegex (l : Str) : Bool :=
  let r := l.dropWhile pyWs
  pfx (['/', '/']) r && decide (3 ≤ r.length) && (r.getD 2 'x' != '\n')

/-- Second alternative of the C-family comment regex on the stripped line:
a full block comment, opening at the start, closing at the end, with no
newline inside (the regex dot does not cross newlines; stripped lines end
with a non-whitespace character, so the trailing whitespace class is empty). -/
def cBlockRegex (l : Str) : Bool :=
  pfx (['/', '*']) l && sfx (['*', '/']) l && decide (4 ≤ l.length) &&
    ((l.drop 2).dropLast.dropLast.all (fun c => c != '\n'))

/-- Hash-comment regex of get_line_type on the stripped line: after
optional whitespace, a hash followed by at least one character. -/
def hashRegex (l : Str) : Bool :=
  let r := l.dropWhile pyWs
  pfx (['#']) r && decide (2 ≤ r.length) && (r.getD 1 'x' != '\n')

/-- HTML comment regex of get_line_type on the stripped line. -/
def htmlRegex (l : Str) : Bool :=
  pfx (("<!--").data) l && sfx (("-->").data) l && decide (7 ≤ l.length) &&
    ((l.drop 4).dropLast.dropLast.dropLast.all (fun c => c != '\n'))

/-- get_line_type of codestats.py: strip the line; empty gives BLANK; an
active block comment gives COMMENT; otherwise the per-language single-line
comment regex decides between COMMENT and CODE. -/
def get_line_type (line : Str) (lang : Language) (in_comment : Bool) : LineType :=
  let l := pyStrip line
  if l.isEmpty then .BLANK
  else if in_comment then .COMMENT
  else if lang = .C ∨ lang = .CPP ∨ lang = .TYPESCRIPT ∨ lang = .JAVASCRIPT ∨ lang = .JENKINS then
    if cLineRegex l || cBlockRegex l then .COMMENT else .CODE
  else if lang = .PYTHON ∨ lang = .CMAKE ∨ lang = .BASH ∨ lang = .DOCKER then
    if hashRegex l then .COMMENT else .CODE
  else if lang = .CSS then
    if cBlockRegex l then .COMMENT else .CODE
  else if lang = .HTML then
    if htmlRegex l then .COMMENT else .CODE
  else .CODE

/-- Number of non-overlapping occurrences of a triple double-quote,
scanning from the left (the find loop of check_multiline_comment_token). -/
def countTriple : Str → Nat
  | '\"' :: '\"' :: '\"' :: t => 1 + countTriple t
  | _ :: t => countTriple t
  | [] => 0

/-- check_multiline_comment_token of codestats.py.  For block-comment
languages it takes the last occurrence of each marker: no close marker and
an open marker gives START; a close marker with no open marker gives END;
both markers with the open after the close gives START; both markers with
the open before the close falls through to NONE. -/
def check_multiline_comment_token (line : Str) (lang : Language) (in_comment : Bool) :
    MultileCommentToken :=
  if lang = .C ∨ lang = .CPP ∨ lang = .CSS ∨ lang = .JAVASCRIPT ∨ lang = .TYPESCRIPT ∨ lang = .JENKINS then
    match rfindSub line (['*', '/']), rfindSub line (['/', '*']) with
    | none, none => .NONE
    | none, some _ => .START
    | some _, none => .END
    | some e, some s => if e < s then .START else .NONE
  else if lang = .PYTHON then
    let cnt := countTriple line
    if 0 < cnt then
      if cnt % 2 = 0 then (if in_comment then .START else .END)
      else (if in_comment then .END else .START)
    else .NONE
  else .NONE

/-- The five lines of the C-family sample of the spec, as readlines would
produce them from the content of the scanner line-accounting property. -/
def c2sample : List Str :=
  [("// a\n").data, ("\n").data, ("/* b\n").data, ("c */\n").data, ("int x;\n").data]

/-- The per-line loop of scan_file: for each line the multi-line token is
computed first and in_comment updated, and the line is then classified
with the updated state. -/
def scanLineTypes (lang : Language) : Bool → List Str → List LineType
  | _, [] => []
  | in_comment, l :: rest =>
    let tok := check_multiline_comment_token l lang in_comment
    let in2 := if tok = .START then true else if tok = .END then false else in_comment
    get_line_type l lang in2 :: scanLineTypes lang in2 rest

/-- scan_file of codestats.py restricted to its counting core: the
FileReport line counters, one increment per line, keyed by LineType. -/
def scan_file (lang : Language) (lines : List Str) : Nat × Nat × Nat :=
  let ts := scanLineTypes lang false lines
  (ts.count .CODE, ts.count .COMMENT, ts.count .BLANK)

end Codestats

namespace Codebanner

/-- Enum Language of codebanner.py. -/
inductive Language
  | CPP
  | PYTHON
  | JAVASCRIPT
  | TYPESCRIPT
  | BASH
  | CMAKE
deriving DecidableEq

/-- Errors raised by write_docstring: the unknown-language exception of the
comment-marker dispatch, and the KeyError of an authors-table lookup
(the spec's UnknownAuthor and UnknownContributor). -/
inductive Err
  | unknownLanguage
  | unknownAuthor
deriving DecidableEq

/-- The inputs of one write_docstring call: the per-file entry, the fields
of the loaded configuration it reads, the basename of the file, and the
first-edit year obtained from git (external collaborator), used only when
the copyright start date is empty. -/
structure Params where
  lang : Language
  basename : Str
  docstring : Str
  add_shebang : Option Bool
  author : Str
  contributors : List Str
  authors : List (Str × Str)
  project : Str
  repo : Str
  license : Str
  copyright_owner : Str
  copyright_start_date : Str
  copyright_end_date : Str
  fallbackYear : Nat

/-- Effective add_shebang flag: the per-file value when present, else the
language default (true only for Bash). -/
def effAddShebang (P : Params) : Bool :=
  P.add_shebang.getD (P.lang = Language.BASH)

/-- The shebang string chosen by the per-language dispatch of
write_docstring. -/
def shebang (lang : Language) (addSh : Bool) : Str :=
  match lang with
  | .CPP => []
  | .JAVASCRIPT => if addSh then ("#!/bin/node").data else []
  | .TYPESCRIPT => if addSh then ("#!/bin/node").data else []
  | .PYTHON => if addSh then ("#!/usr/bin/env python3").data else []
  | .BASH => if addSh then ("#!/bin/bash").data else []
  | .CMAKE => []

/-- The line-comment marker of the first per-language dispatch (the one
that builds comment_pattern). -/
def markerOf (lang : Language) : Str :=
  match lang with
  | .CPP | .JAVASCRIPT | .TYPESCRIPT => ['/', '/']
  | .PYTHON | .BASH | .CMAKE => ['#']

/-- First comment pattern of write_docstring: after optional leading
whitespace the line starts with the marker (re.match of the pattern
built from the marker followed by a dot-star group). -/
def lineCommentPat (m : Str) (l : Str) : Bool := pfx m (l.dropWhile pyWs)

/-- Second comment pattern of write_docstring: a nonempty all-whitespace
line (re.match of a one-or-more whitespace pattern anchored at both ends). -/
def blankPat (l : Str) : Bool := !l.isEmpty && l.all pyWs

/-- comment_pattern of write_docstring: every language pairs its
line-comment pattern with the blank-line pattern. -/
def comment_pattern (lang : Language) : List (Str → Bool) :=
  [lineCommentPat (markerOf lang), blankPat]

/-- The TypeScript skip pattern: a double slash, optional whitespace and a
ts-check or ts-nocheck directive (re.match, so anchored at the start). -/
def tsCheckPat (l : Str) : Bool :=
  pfx (['/', '/']) l &&
    (let r := (l.drop 2).dropWhile pyWs
     pfx (("@ts-check").data) r || pfx (("@ts-nocheck").data) r)

/-- skip_patterns of write_docstring: only TypeScript has one. -/
def skip_patterns (lang : Language) : List (Str → Bool) :=
  match lang with
  | .TYPESCRIPT => [tsCheckPat]
  | _ => []

/-- The header-scanning loop of write_docstring.  State: remaining lines,
current line number, start_line, comment_lines, skip_done.  Skip-pattern
lines are only recognised before the first comment line; the first
non-skip non-comment line finishes the header (later lines are copied
unchanged, so the scan can stop). -/
def scanHeaderAux (sp cp : List (Str → Bool)) :
    List Str → Nat → Nat → Nat → Bool → Nat × Nat
  | [], _, startLine, commentLines, _ => (startLine, commentLines)
  | l :: rest, lineNo, startLine, commentLines, skipDone =>
    if !skipDone && sp.any (fun p => p l) then
      scanHeaderAux sp cp rest (lineNo + 1) (startLine + 1) commentLines skipDone
    else if cp.any (fun p => p l) then
      scanHeaderAux sp cp rest (lineNo + 1)
        (if skipDone then startLine else lineNo) (commentLines + 1) true
    else (startLine, commentLines)

/-- Result of the header scan: (start_line, comment_lines). -/
def scanHeader (sp cp : List (Str → Bool)) (lines : List Str) : Nat × Nat :=
  scanHeaderAux sp cp lines 0 0 0 false

/-- The removal loop: comment_lines successive pops at index start_line. -/
def popN (s : Nat) : Nat → List Str → List Str
  | 0, l => l
  | c + 1, l => popN s c (l.eraseIdx s)

/-- The insertion loop: the split header lines are reversed and each,
with a newline appended, is inserted at index start_line. -/
def insertHeader (s : Nat) (segs : List Str) (body : List Str) : List Str :=
  (segs.reverse).foldl (fun acc seg => acc.insertIdx s (seg ++ ['\n'])) body

/-- The date-rendering block of write_docstring.  The source keeps a
double_date flag: it is cleared when the start date is empty (the
first-edit year, an int, is substituted), when the end date is empty, or
when both dates are equal; the source's int-versus-string comparison after
a substitution is always false in Python, but the flag is already cleared
in that case, so comparing only strings is equivalent. -/
def renderedDate (startD endD : Str) (fallback : Nat) : Str :=
  if startD = [] then natToStr fallback
  else if endD = [] then startD
  else if startD = endD then startD
  else startD ++ '-' :: endD

/-- Indentation helper tab of write_docstring (tab_space = 4). -/
def tab (count : Nat) : Str := List.replicate (4 * count) ' '

/-- The comment-marker dispatch of write_docstring.  The source tests
membership of language in a list literal whose third element is the
boolean language == Language.TYPESCRIPT rather than the enum member
itself, so a TypeScript file never matches the slash-marker branch, falls
through the hash branch too, and reaches the unknown-language raise. -/
def comment_char : Language → Except Err Str
  | .CPP | .JAVASCRIPT => .ok (['/', '/'])
  | .PYTHON | .BASH | .CMAKE => .ok (['#'])
  | .TYPESCRIPT => .error .unknownLanguage

/-- make_list_item of write_docstring, without the trailing newline (the
newline is supplied by joinLines). -/
def make_list_item (cc : Str) (indent : Nat) (key val : Str) : Str :=
  cc ++ ((tab indent).dropLast ++ ['-']) ++ [' '] ++ key ++ (" : ").data ++ val

/-- Position of the first newline in the remaining docstring
(str.find, none when absent). -/
def findNl : Str → Option Nat
  | [] => none
  | c :: t => if c = '\n' then some 0 else (findNl t).map (· + 1)

/-- The inner scanning loop of format_docstring: starting at index 80, the
first index that is past the end of the string or holds a space or a
newline (the source checks the length condition first at each step). -/
def findBreakGo (ds : Str) : Nat → Nat → Nat
  | j, 0 => j
  | j, fuel + 1 =>
    if ds.length ≤ j then j
    else if ds.getD j 'x' = ' ' ∨ ds.getD j 'x' = '\n' then j
    else findBreakGo ds (j + 1) fuel

def findBreak (ds : Str) : Nat := findBreakGo ds 80 ds.length

/-- The chunking loop of format_docstring (chunk_size = 80).  A remainder
of at most 80 characters is emitted stripped and ends the loop; a newline
at or before column 80 ends the current chunk there; otherwise the break
is searched forward from column 80, emitting the whole remainder unstripped
when the end of the string is reached first.  The fuel argument dominates
the number of iterations (every step consumes at least one character). -/
def wrapGo : Nat → Str → List Str
  | 0, _ => []
  | fuel + 1, ds =>
    if ds.length ≤ 80 then [pyStrip ds]
    else
      match findNl ds with
      | some nlb =>
        if nlb ≤ 80 then pyStrip (ds.take (nlb + 1)) :: wrapGo fuel (ds.drop (nlb + 1))
        else
          let j := findBreak ds
          if ds.length ≤ j then [ds]
          else pyStrip (ds.take j) :: wrapGo fuel (ds.drop j)
      | none =>
        let j := findBreak ds
        if ds.length ≤ j then [ds]
        else pyStrip (ds.take j) :: wrapGo fuel (ds.drop j)

def wrapLines (ds : Str) : List Str := wrapGo (ds.length + 1) ds

/-- format_docstring of codebanner.py: wrap, join with newlines, prepend
the spacer when nonempty, then replace every newline by a newline followed
by the comment marker and the spacer. -/
def format_docstring (doc cc spacer : Str) : Str :=
  let ls := wrapLines doc
  let j := joinListNl ls
  let j2 := if j = [] then j else spacer ++ j
  repNl (cc ++ spacer) j2

/-- Lookup of an identifier in the authors mapping; an absent identifier
raises (Python KeyError, the spec's UnknownAuthor / UnknownContributor). -/
def lookupName (authors : List (Str × Str)) (k : Str) : Except Err Str :=
  match authors.lookup k with
  | some v => .ok v
  | none => .error .unknownAuthor

/-- Sequential resolution of the contributor identifiers, stopping at the
first failing lookup (the for-loop over contributors). -/
def mapMLookup (authors : List (Str × Str)) : List Str → Except Err (List Str)
  | [] => .ok []
  | c :: rest =>
    match lookupName authors c with
    | .error e => .error e
    | .ok f =>
      match mapMLookup authors rest with
      | .error e => .error e
      | .ok fs => .ok (f :: fs)

/-- The successive new_header pieces of write_docstring, one list entry
per emitted line, without the terminating newlines (joinLines adds them).
The shebang concatenation contributes two pieces because it appends two
newlines. -/
def headerChunks (P : Params) (cc rendered : Str) (addSh : Bool)
    (authorFull : Str) (contribFulls : List Str) : List Str :=
  (if addSh then [shebang P.lang addSh, []] else [])
    ++ [cc ++ tab 1 ++ P.basename]
    ++ (if P.docstring = [] then []
        else [cc ++ format_docstring P.docstring cc (tab 2)])
    ++ [cc]
    ++ (if P.author = [] then []
        else [make_list_item cc 1 (("Author").data) authorFull])
    ++ (if P.contributors = [] then []
        else make_list_item cc 1 (("Contributors").data) []
          :: contribFulls.map (fun f => cc ++ (tab 2).dropLast ++ ("- ").data ++ f))
    ++ [make_list_item cc 1 (("License").data) P.license]
    ++ [make_list_item cc 1 (("Project").data)
          (P.project ++ if P.repo = [] then [] else (" (").data ++ P.repo ++ [')'])]
    ++ [cc]
    ++ [cc ++ tab 1 ++ ("Copyright (c) ").data ++ rendered ++ [' '] ++ P.copyright_owner]

/-- The banner-building half of write_docstring: resolves the author and
the contributors against the authors mapping (in source order, author
first) and concatenates the new_header string. -/
def buildNewHeader (P : Params) (cc rendered : Str) (addSh : Bool) : Except Err Str :=
  match (if P.author = [] then Except.ok [] else lookupName P.authors P.author) with
  | .error e => .error e
  | .ok authorFull =>
    match (if P.contributors = [] then Except.ok []
           else mapMLookup P.authors P.contributors) with
    | .error e => .error e
    | .ok contribFulls =>
      .ok (joinLines (headerChunks P cc rendered addSh authorFull contribFulls))

/-- write_docstring of codebanner.py on a file's lines: scan the header
region, remove the comment block, render the new banner and insert its
lines at start_line.  File input and output are abstracted to the line
list; the language dispatches and the author lookups are the only error
exits, both reached before the file is reopened for writing. -/
def write_docstring (P : Params) (lines : List Str) : Except Err (List Str) :=
  let sc := scanHeader (skip_patterns P.lang) (comment_pattern P.lang) lines
  let body := popN sc.1 sc.2 lines
  let rendered := renderedDate P.copyright_start_date P.copyright_end_date P.fallbackYear
  match comment_char P.lang with
  | .error e => .error e
  | .ok cc =>
    match buildNewHeader P cc rendered (effAddShebang P) with
    | .error e => .error e
    | .ok nh => .ok (insertHeader sc.1 (splitNl nh) body)

/-- The banner alone: the lines write_docstring inserts, each with its
trailing newline.  It depends only on the parameters, not on the file. -/
def bannerOf (P : Params) : Except Err (List Str) :=
  let rendered := renderedDate P.copyright_start_date P.copyright_end_date P.fallbackYear
  match comment_char P.lang with
  | .error e => .error e
  | .ok cc =>
    match buildNewHeader P cc rendered (effAddShebang P) with
    | .error e => .error e
    | .ok nh => .ok ((splitNl nh).map (fun seg => seg ++ ['\n']))

/-- The on-disk content after one write_docstring attempt: the raised
exception propagates before the file is opened for writing, so on error
the content is unchanged. -/
def fileAfterWrite (P : Params) (lines : List Str) : List Str :=
  match write_docstring P lines with
  | .ok out => out
  | .error _ => lines

/-- A banner segment is harmless for the rescan when it starts with the
comment marker or is all whitespace (an empty segment becomes a bare
newline line when written out). -/
def segOk (cc seg : Str) : Prop := pfx cc seg = true ∨ seg.all pyWs = true

instance (cc seg : Str) : Decidable (segOk cc seg) := by unfold segOk; infer_instance

/-- Hypotheses of the amended idempotence claim: every string field that is
rendered verbatim into a banner line is free of newline characters, and
the add_shebang option is not in effect for a JavaScript file (whose node
shebang line is not recognised by the slash-comment scanner). -/
def GoodParams (P : Params) : Prop :=
  noNl P.basename ∧ noNl P.project ∧ noNl P.repo ∧ noNl P.license ∧
  noNl P.copyright_owner ∧ noNl P.copyright_start_date ∧ noNl P.copyright_end_date ∧
  (∀ kv ∈ P.authors, noNl kv.2) ∧
  ¬(P.lang = Language.JAVASCRIPT ∧ effAddShebang P = true)

instance (P : Params) : Decidable (GoodParams P) := by unfold GoodParams; infer_instance

/-- Concrete parameters of a plain Python file entry, used by witnesses. -/
def pyParams : Params :=
  { lang := .PYTHON, basename := ("x.py").data, docstring := [],
    add_shebang := none, author := [], contributors := [],
    authors := [], project := ("Proj").data, repo := ("repo").data,
    license := ("MIT").data, copyright_owner := ("Owner").data,
    copyright_start_date := ("2020").data, copyright_end_date := ("2023").data,
    fallbackYear := 2019 }

/-- A JavaScript entry with the add_shebang option set. -/
def jsShebangParams : Params :=
  { pyParams with
    lang := .JAVASCRIPT
    basename := ("x.js").data
    add_shebang := some true }

/-- A TypeScript entry. -/
def tsParams : Params :=
  { pyParams with lang := .TYPESCRIPT, basename := ("x.ts").data }

/-- A Python entry naming an author identifier absent from the (empty)
authors mapping. -/
def missingAuthorParams : Params :=
  { pyParams with author := ("jdoe").data }

/-- A TypeScript entry naming an author identifier absent from the (empty)
authors mapping. -/
def tsMissingAuthorParams : Params :=
  { tsParams with author := ("jdoe").data }

/-- A docstring whose first space lies past column 80: eighty-five letters,
a space, then eighty more letters. -/
def c4doc : Str := List.replicate 85 'a' ++ [' '] ++ List.replicate 80 'b'

/-- A sample body line used by the witnesses. -/
def bodyLine : Str := ("x = 1\n").data

/-- The output of the first rewrite of pyParams on the one-line body. -/
def pyOut : List Str :=
  match write_docstring pyParams [bodyLine] with
  | .ok out => out
  | .error _ => []

end Codebanner

/- ===================== Lemmas: codestats ===================== -/

theorem scanLineTypes_length (lang : Codestats.Language) (b : Bool) (lines : List Str) :
    (Codestats.scanLineTypes lang b lines).length = lines.length := by
  induction lines generalizing b with
  | nil => rfl
  | cons l rest ih => simp [Codestats.scanLineTypes, ih]

theorem lineTypes_count_partition (ts : List Codestats.LineType) :
    ts.count .CODE + ts.count .COMMENT + ts.count .BLANK = ts.length := by
  induction ts with
  | nil => rfl
  | cons t rest ih =>
    cases t <;> simp [List.count_cons, ih] <;> omega

/- ===================== Claims C2, C3, C9, C10 ===================== -/

/-- Claim C10: for every language and every file content, each line of the
scanned file receives exactly one classification, so the per-file counters
satisfy code + comment + blank = total number of lines, each counter being
a non-negative count. -/
theorem claim_C10_line_accounting (lang : Codestats.Language) (lines : List Str) :
    0 ≤ (Codestats.scan_file lang lines).1 ∧
    0 ≤ (Codestats.scan_file lang lines).2.1 ∧
    0 ≤ (Codestats.scan_file lang lines).2.2 ∧
    (Codestats.scan_file lang lines).1 + (Codestats.scan_file lang lines).2.1 +
      (Codestats.scan_file lang lines).2.2 = lines.length := by
  refine ⟨Nat.zero_le _, Nat.zero_le _, Nat.zero_le _, ?_⟩
  unfold Codestats.scan_file
  rw [lineTypes_count_partition, scanLineTypes_length]

/-- Claim C9: for every language and every block-comment state, a line that
is empty after stripping whitespace is classified BLANK, even while inside
a block comment. -/
theorem claim_C9_blank (line : Str) (lang : Codestats.Language) (in_comment : Bool)
    (h : pyStrip line = []) :
    Codestats.get_line_type line lang in_comment = .BLANK := by
  unfold Codestats.get_line_type
  simp [h]

/-- Witness for C9 at a concrete whitespace-only line. -/
theorem claim_C9_blank_witness :
    Codestats.get_line_type (("  \n").data) Codestats.Language.C true = .BLANK :=
  claim_C9_blank _ _ _ (by decide)

/-- Counterexample to claim C2 as stated: on the C-family sample the
scanner does not produce [COMMENT, BLANK, COMMENT, COMMENT, CODE] with
counts code 1, comment 3, blank 1 - the block-closing line is counted as
code because scan_file clears in_comment before classifying the line. -/
theorem claim_C2_counterexample :
    ¬ (Codestats.scanLineTypes Codestats.Language.C false Codestats.c2sample =
        [.COMMENT, .BLANK, .COMMENT, .COMMENT, .CODE] ∧
       Codestats.scan_file Codestats.Language.C Codestats.c2sample = (1, 3, 1)) := by
  decide

/-- Claim C2 amended: on the C-family sample the classification sequence is
[COMMENT, BLANK, COMMENT, CODE, CODE] and the aggregate counts are
code 2, comment 2, blank 1 (the line closing the block comment is
classified CODE because the state is updated before classification). -/
theorem claim_C2_scan :
    Codestats.scanLineTypes Codestats.Language.C false Codestats.c2sample =
      [.COMMENT, .BLANK, .COMMENT, .CODE, .CODE] ∧
    Codestats.scan_file Codestats.Language.C Codestats.c2sample = (2, 2, 1) := by
  decide

/-- Counterexample to claim C3 as stated: inside a block comment, a line
holding an open marker before a close marker does not produce END (the
code falls through to NONE when both markers occur with the close last). -/
theorem claim_C3_counterexample :
    Codestats.check_multiline_comment_token (("/* x */").data)
      Codestats.Language.C true ≠ .END := by
  decide

/-- Claim C3 amended: for every block-comment language of the claim, a line
containing a block-close marker and no block-open marker produces the END
token (so the in-block state becomes false for the next line); when both
markers occur, END is never produced - the result is START when the last
open follows the last close and NONE otherwise. -/
theorem claim_C3_end_token (line : Str) (lang : Codestats.Language) (in_comment : Bool)
    (hlang : lang = .C ∨ lang = .CPP ∨ lang = .CSS ∨ lang = .JAVASCRIPT ∨ lang = .TYPESCRIPT)
    (hclose : (Codestats.rfindSub line (['*', '/'])).isSome = true)
    (hopen : Codestats.rfindSub line (['/', '*']) = none) :
    Codestats.check_multiline_comment_token line lang in_comment = .END := by
  obtain ⟨e, he⟩ := Option.isSome_iff_exists.mp hclose
  unfold Codestats.check_multiline_comment_token
  have hl : lang = .C ∨ lang = .CPP ∨ lang = .CSS ∨ lang = .JAVASCRIPT ∨
      lang = .TYPESCRIPT ∨ lang = .JENKINS := by tauto
  rw [if_pos hl, he, hopen]

/-- Witness for C3 amended at a concrete close-only line. -/
theorem claim_C3_end_token_witness :
    Codestats.check_multiline_comment_token (("x */").data)
      Codestats.Language.C true = .END :=
  claim_C3_end_token _ _ _ (Or.inl rfl) (by decide) (by decide)

/- ===================== Lemmas: codebanner errors ===================== -/

theorem comment_char_ok_of_ne_ts (lang : Codebanner.Language)
    (h : lang ≠ Codebanner.Language.TYPESCRIPT) :
    ∃ cc, Codebanner.comment_char lang = .ok cc := by
  cases lang <;> first
    | exact ⟨_, rfl⟩
    | exact absurd rfl h

theorem mapMLookup_error (authors : List (Str × Str)) (cs : List Str)
    (h : ∃ c ∈ cs, authors.lookup c = none) :
    Codebanner.mapMLookup authors cs = .error .unknownAuthor := by
  induction cs with
  | nil => obtain ⟨c, hc, _⟩ := h; exact absurd hc (List.not_mem_nil c)
  | cons c0 rest ih =>
    obtain ⟨c, hc, hn⟩ := h
    unfold Codebanner.mapMLookup Codebanner.lookupName
    rcases List.mem_cons.mp hc with rfl | hmem
    · rw [hn]
    · cases h0 : authors.lookup c0 with
      | none => rfl
      | some v => rw [ih ⟨c, hmem, hn⟩]

/- ===================== Claims C5, C6, C8 and the C1 counterexample ===================== -/

/-- Claim C5: the copyright date expression renders the start date alone
when the end date is absent or equal to it, renders start-end when both
are present and different, and substitutes the fallback first-edit year,
rendered alone, when the start date is absent. -/
theorem claim_C5_date_rendering (startD endD : Str) (fallback : Nat) :
    (startD ≠ [] → (endD = [] ∨ startD = endD) →
      Codebanner.renderedDate startD endD fallback = startD) ∧
    (startD ≠ [] → endD ≠ [] → startD ≠ endD →
      Codebanner.renderedDate startD endD fallback = startD ++ '-' :: endD) ∧
    (startD = [] → Codebanner.renderedDate startD endD fallback = natToStr fallback) := by
  unfold Codebanner.renderedDate
  refine ⟨fun h1 h2 => ?_, fun h1 h2 h3 => ?_, fun h1 => ?_⟩ <;>
    split_ifs <;> first | rfl | tauto

/-- Witness for C5 at the concrete spec dates 2020 and 2023. -/
theorem claim_C5_date_rendering_witness :
    Codebanner.renderedDate (("2020").data) (("2023").data) 2019 =
      ("2020").data ++ '-' :: ("2023").data :=
  (claim_C5_date_rendering _ _ _).2.1 (by decide) (by decide) (by decide)

/-- Claim C6 (the code contradicts it): TypeScript has a registered comment
syntax in the first dispatch of write_docstring, yet the rewrite of a
TypeScript file fails with the unknown-language error, because the
comment-marker dispatch tests membership in a list whose third element is
the boolean comparison language == Language.TYPESCRIPT instead of the enum
member, so TypeScript matches no branch. -/
theorem claim_C6_typescript_unknown_language :
    Codebanner.write_docstring Codebanner.tsParams [] = .error .unknownLanguage := by
  decide

/-- Counterexample to claim C8 as stated: a TypeScript per-file entry
naming an author identifier absent from the authors mapping does not
fail with the unknown-author error - the comment-marker dispatch raises
its unknown-language exception first, before any author lookup. -/
theorem claim_C8_counterexample :
    Codebanner.tsMissingAuthorParams.author ≠ [] ∧
    Codebanner.tsMissingAuthorParams.authors.lookup
      Codebanner.tsMissingAuthorParams.author = none ∧
    Codebanner.write_docstring Codebanner.tsMissingAuthorParams [] ≠
      .error .unknownAuthor ∧
    Codebanner.write_docstring Codebanner.tsMissingAuthorParams [] =
      .error .unknownLanguage := by
  decide

/-- Claim C8 amended: for every non-TypeScript language, when the per-file
entry names an author or a contributor identifier absent from the authors
mapping, the write fails with the unknown-author error and the file
content is left unchanged - the lookup raises before the file is reopened
for writing.  For TypeScript the write fails earlier, with the
unknown-language error of the dispatch bug, before any author lookup. -/
theorem claim_C8_unknown_author (P : Codebanner.Params) (lines : List Str)
    (hL : P.lang ≠ Codebanner.Language.TYPESCRIPT)
    (h : (P.author ≠ [] ∧ P.authors.lookup P.author = none) ∨
         (∃ c ∈ P.contributors, P.authors.lookup c = none)) :
    Codebanner.write_docstring P lines = .error .unknownAuthor ∧
    Codebanner.fileAfterWrite P lines = lines := by
  obtain ⟨cc, hcc⟩ := comment_char_ok_of_ne_ts P.lang hL
  have hbuild : ∀ rendered addSh,
      Codebanner.buildNewHeader P cc rendered addSh = .error .unknownAuthor := by
    intro rendered addSh
    unfold Codebanner.buildNewHeader
    rcases h with ⟨ha, hn⟩ | ⟨c, hc, hn⟩
    · rw [if_neg ha]
      unfold Codebanner.lookupName
      rw [hn]
    · have hcs : P.contributors ≠ [] := by
        intro hnil; rw [hnil] at hc; exact (List.not_mem_nil c) hc
      by_cases ha : P.author = []
      · rw [if_pos ha, if_neg hcs, mapMLookup_error P.authors P.contributors ⟨c, hc, hn⟩]
      · rw [if_neg ha]
        unfold Codebanner.lookupName
        cases h0 : P.authors.lookup P.author with
        | none => rfl
        | some v =>
          rw [if_neg hcs, mapMLookup_error P.authors P.contributors ⟨c, hc, hn⟩]
  have hw : Codebanner.write_docstring P lines = .error .unknownAuthor := by
    simp only [Codebanner.write_docstring, hcc, hbuild]
  refine ⟨hw, ?_⟩
  unfold Codebanner.fileAfterWrite
  rw [hw]

/-- Witness for C8 at a concrete entry whose author is missing from the
authors mapping. -/
theorem claim_C8_unknown_author_witness :
    Codebanner.write_docstring Codebanner.missingAuthorParams [Codebanner.bodyLine] =
      .error .unknownAuthor ∧
    Codebanner.fileAfterWrite Codebanner.missingAuthorParams [Codebanner.bodyLine] =
      [Codebanner.bodyLine] :=
  claim_C8_unknown_author _ _ (by decide) (Or.inl ⟨by decide, by decide⟩)

/-- Counterexample to claim C1 as stated: for a JavaScript file with the
add_shebang option, rewriting the output of a rewrite does not reproduce
it - the emitted node shebang line is not recognised as a comment by the
slash-comment scanner, so the second pass inserts a whole second banner. -/
theorem claim_C1_counterexample :
    (Codebanner.write_docstring Codebanner.jsShebangParams []).bind
      (Codebanner.write_docstring Codebanner.jsShebangParams) ≠
    Codebanner.write_docstring Codebanner.jsShebangParams [] := by
  decide

/- ===================== Lemmas: prefix and newline-freedom ===================== -/

theorem pfx_append_self (a b : Str) : pfx a (a ++ b) = true := by
  induction a with
  | nil => rfl
  | cons c t ih => simp [pfx, ih]

theorem pfx_refl (a : Str) : pfx a a = true := by
  have := pfx_append_self a []
  simpa using this

theorem pfx_append_left (a b s : Str) (h : pfx (a ++ b) s = true) : pfx a s = true := by
  induction a generalizing s with
  | nil => rfl
  | cons c t ih =>
    cases s with
    | nil => simp [pfx] at h
    | cons d s' =>
      simp only [List.cons_append, pfx, Bool.and_eq_true, beq_iff_eq] at h ⊢
      exact ⟨h.1, ih s' h.2⟩

theorem pfx_exists (a s : Str) (h : pfx a s = true) : ∃ t, s = a ++ t := by
  induction a generalizing s with
  | nil => exact ⟨s, rfl⟩
  | cons c t ih =>
    cases s with
    | nil => simp [pfx] at h
    | cons d s' =>
      simp only [pfx, Bool.and_eq_true, beq_iff_eq] at h
      obtain ⟨t', ht⟩ := ih s' h.2
      exact ⟨t', by simp [h.1, ht]⟩

theorem noNl_append (a b : Str) : noNl (a ++ b) ↔ (noNl a ∧ noNl b) := by
  unfold noNl
  simp only [List.mem_append]
  tauto

theorem noNl_nil : noNl ([] : Str) := by
  intro h
  exact List.not_mem_nil _ h

theorem noNl_tab (n : Nat) : noNl (Codebanner.tab n) := by
  intro h
  rw [Codebanner.tab, List.mem_replicate] at h
  exact absurd h.2 (by decide)

theorem noNl_dropLast (s : Str) (h : noNl s) : noNl s.dropLast := by
  intro m
  exact h (List.dropLast_subset s m)

theorem digitChar_ne_nl (d : Nat) : digitChar d ≠ '\n' := by
  unfold digitChar
  by_cases h : d < 10
  · interval_cases d <;> decide
  · rw [List.getD_eq_default]
    · decide
    · simpa using Nat.le_of_not_lt h

theorem noNl_natToStrGo (fuel n : Nat) (acc : Str) (h : noNl acc) :
    noNl (natToStrGo fuel n acc) := by
  induction fuel generalizing n acc with
  | zero => exact h
  | succ fuel ih =>
    unfold natToStrGo
    split_ifs
    · intro m
      rcases List.mem_cons.mp m with he | hm
      · exact digitChar_ne_nl n he.symm
      · exact h hm
    · refine ih _ _ ?_
      intro m
      rcases List.mem_cons.mp m with he | hm
      · exact digitChar_ne_nl (n % 10) he.symm
      · exact h hm

theorem noNl_natToStr (n : Nat) : noNl (natToStr n) :=
  noNl_natToStrGo _ _ _ noNl_nil

theorem noNl_renderedDate (s e : Str) (f : Nat) (hs : noNl s) (he : noNl e) :
    noNl (Codebanner.renderedDate s e f) := by
  unfold Codebanner.renderedDate
  split_ifs
  · exact noNl_natToStr f
  · exact hs
  · exact hs
  · intro m
    rcases List.mem_append.mp m with hm | hm
    · exact hs hm
    · rcases List.mem_cons.mp hm with he2 | hm2
      · exact absurd he2 (by decide)
      · exact he hm2

/- ===================== Lemmas: splitNl toolkit ===================== -/

theorem splitNl_ne_nil (s : Str) : splitNl s ≠ [] := by
  induction s with
  | nil => simp [splitNl]
  | cons c t ih =>
    unfold splitNl
    split_ifs
    · simp
    · cases h : splitNl t with
      | nil => exact absurd h ih
      | cons a l => simp [List.modifyHead]

theorem modifyHead_append {α : Type} (f : α → α) (l r : List α) (h : l ≠ []) :
    (l ++ r).modifyHead f = l.modifyHead f ++ r := by
  cases l with
  | nil => exact absurd rfl h
  | cons a t => simp [List.modifyHead]

theorem splitNl_append_cons_nl (z y : Str) :
    splitNl (z ++ '\n' :: y) = splitNl z ++ splitNl y := by
  induction z with
  | nil => simp [splitNl]
  | cons c t ih =>
    by_cases hc : c = '\n'
    · subst hc
      simp [splitNl, ih]
    · simp [splitNl, hc, ih, modifyHead_append _ _ _ (splitNl_ne_nil t)]

theorem splitNl_of_noNl (s : Str) (h : noNl s) : splitNl s = [s] := by
  induction s with
  | nil => rfl
  | cons c t ih =>
    have hc : c ≠ '\n' := by
      intro e
      exact h (by rw [e]; exact List.mem_cons_self _ _)
    have ht : noNl t := fun m => h (List.mem_cons_of_mem _ m)
    simp [splitNl, hc, ih ht, List.modifyHead]

theorem splitNl_append_noNl_left (a y : Str) (h : noNl a) :
    splitNl (a ++ y) = (splitNl y).modifyHead (a ++ ·) := by
  induction a with
  | nil =>
    cases hy : splitNl y with
    | nil => exact absurd hy (splitNl_ne_nil y)
    | cons b l => simp [hy, List.modifyHead]
  | cons c t ih =>
    have hc : c ≠ '\n' := by
      intro e
      exact h (by rw [e]; exact List.mem_cons_self _ _)
    have ht : noNl t := fun m => h (List.mem_cons_of_mem _ m)
    cases hy : splitNl y with
    | nil => exact absurd hy (splitNl_ne_nil y)
    | cons b l => simp [splitNl, hc, ih ht, hy, List.modifyHead]

theorem splitNl_joinLines (bs : List Str) :
    splitNl (joinLines bs) = bs.flatMap splitNl ++ [[]] := by
  induction bs with
  | nil => rfl
  | cons b rest ih =>
    have hj : joinLines (b :: rest) = b ++ '\n' :: joinLines rest := rfl
    rw [hj, splitNl_append_cons_nl, ih, List.flatMap_cons, List.append_assoc]

theorem mem_modifyHead_cons {α : Type} (f : α → α) (b : α) (m : List α) (x : α)
    (h : x ∈ (b :: m).modifyHead f) : x = f b ∨ x ∈ m := by
  simpa [List.modifyHead] using h

theorem tail_modifyHead {α : Type} (f : α → α) (l : List α) :
    (l.modifyHead f).tail = l.tail := by
  cases l <;> simp [List.modifyHead]

theorem repNl_tail_prefixed (ins : Str) (hins : noNl ins) (s : Str) :
    ∀ seg ∈ (splitNl (repNl ins s)).tail, pfx ins seg = true := by
  induction s with
  | nil => simp [repNl, splitNl]
  | cons c t ih =>
    by_cases hc : c = '\n'
    · subst hc
      intro seg hseg
      have hr : repNl ins ('\n' :: t) = '\n' :: (ins ++ repNl ins t) := by
        simp [repNl]
      rw [hr] at hseg
      have hs : splitNl ('\n' :: (ins ++ repNl ins t)) =
          [] :: splitNl (ins ++ repNl ins t) := by
        simp [splitNl]
      rw [hs] at hseg
      simp only [List.tail_cons] at hseg
      rw [splitNl_append_noNl_left ins _ hins] at hseg
      cases hsp : splitNl (repNl ins t) with
      | nil => exact absurd hsp (splitNl_ne_nil _)
      | cons b m =>
        rw [hsp] at hseg
        rcases mem_modifyHead_cons _ _ _ _ hseg with he | hm
        · rw [he]
          exact pfx_append_self ins b
        · have : seg ∈ (splitNl (repNl ins t)).tail := by rw [hsp]; exact hm
          exact ih seg this
    · intro seg hseg
      have hr : repNl ins (c :: t) = c :: repNl ins t := by
        simp [repNl, hc]
      rw [hr] at hseg
      have hs : splitNl (c :: repNl ins t) =
          (splitNl (repNl ins t)).modifyHead (c :: ·) := by
        simp [splitNl, hc]
      rw [hs, tail_modifyHead] at hseg
      exact ih seg hseg

/- ===================== Lemmas: banner segments ===================== -/

theorem segOk_empty (cc : Str) : Codebanner.segOk cc [] := by
  right
  rfl

theorem chunk_marker_segs (cc rest : Str) (hcc : noNl cc) (h : noNl rest) :
    ∀ seg ∈ splitNl (cc ++ rest), Codebanner.segOk cc seg := by
  have hall : noNl (cc ++ rest) := (noNl_append cc rest).mpr ⟨hcc, h⟩
  rw [splitNl_of_noNl _ hall]
  intro seg hseg
  simp only [List.mem_singleton] at hseg
  subst hseg
  left
  exact pfx_append_self cc rest

theorem doc_chunk_segs (doc cc spacer : Str) (hcc : noNl cc) (hsp : noNl spacer) :
    ∀ seg ∈ splitNl (cc ++ Codebanner.format_docstring doc cc spacer),
      Codebanner.segOk cc seg := by
  intro seg hseg
  obtain ⟨X, hX⟩ : ∃ X, Codebanner.format_docstring doc cc spacer =
      repNl (cc ++ spacer) X := ⟨_, rfl⟩
  have hins : noNl (cc ++ spacer) := (noNl_append cc spacer).mpr ⟨hcc, hsp⟩
  rw [hX, splitNl_append_noNl_left cc _ hcc] at hseg
  cases hsp2 : splitNl (repNl (cc ++ spacer) X) with
  | nil => exact absurd hsp2 (splitNl_ne_nil _)
  | cons b m =>
    rw [hsp2] at hseg
    rcases mem_modifyHead_cons _ _ _ _ hseg with he | hm
    · rw [he]
      left
      exact pfx_append_self cc b
    · left
      have hmem : seg ∈ (splitNl (repNl (cc ++ spacer) X)).tail := by
        rw [hsp2]
        exact hm
      exact pfx_append_left cc spacer seg (repNl_tail_prefixed _ hins X seg hmem)

theorem joinLines_segs_ok (cc : Str) (bs : List Str)
    (h : ∀ b ∈ bs, ∀ seg ∈ splitNl b, Codebanner.segOk cc seg) :
    ∀ seg ∈ splitNl (joinLines bs), Codebanner.segOk cc seg := by
  intro seg hseg
  rw [splitNl_joinLines] at hseg
  rcases List.mem_append.mp hseg with hm | hm
  · obtain ⟨b, hb, hsb⟩ := List.mem_flatMap.mp hm
    exact h b hb seg hsb
  · simp only [List.mem_singleton] at hm
    subst hm
    exact segOk_empty cc

/- ===================== Lemmas: comment markers and lookups ===================== -/

theorem comment_char_cases (lang : Codebanner.Language) (cc : Str)
    (h : Codebanner.comment_char lang = .ok cc) : cc = ['/', '/'] ∨ cc = ['#'] := by
  cases lang
  · exact Or.inl (Except.ok.inj h).symm
  · exact Or.inr (Except.ok.inj h).symm
  · exact Or.inl (Except.ok.inj h).symm
  · exact Except.noConfusion h
  · exact Or.inr (Except.ok.inj h).symm
  · exact Or.inr (Except.ok.inj h).symm

theorem markerOf_eq (lang : Codebanner.Language) (cc : Str)
    (h : Codebanner.comment_char lang = .ok cc) : Codebanner.markerOf lang = cc := by
  cases lang
  · exact Except.ok.inj h
  · exact Except.ok.inj h
  · exact Except.ok.inj h
  · exact Except.noConfusion h
  · exact Except.ok.inj h
  · exact Except.ok.inj h

theorem noNl_marker (cc : Str) (h : cc = ['/', '/'] ∨ cc = ['#']) : noNl cc := by
  rcases h with rfl | rfl <;> decide

theorem dropWhile_marker (cc X : Str) (hcc : cc = ['/', '/'] ∨ cc = ['#']) :
    (cc ++ X).dropWhile pyWs = cc ++ X := by
  rcases hcc with rfl | rfl <;>
    simp [List.dropWhile_cons, (by decide : pyWs '/' = false),
      (by decide : pyWs '#' = false)]

theorem banner_line_matches (lang : Codebanner.Language) (cc seg : Str)
    (hcc : Codebanner.comment_char lang = .ok cc) (h : Codebanner.segOk cc seg) :
    (Codebanner.comment_pattern lang).any (fun p => p (seg ++ ['\n'])) = true := by
  have hm := markerOf_eq lang cc hcc
  have hcases := comment_char_cases lang cc hcc
  rcases h with h | h
  · obtain ⟨t, rfl⟩ := pfx_exists cc seg h
    have hl : Codebanner.lineCommentPat (Codebanner.markerOf lang)
        ((cc ++ t) ++ ['\n']) = true := by
      unfold Codebanner.lineCommentPat
      rw [hm, List.append_assoc, dropWhile_marker cc _ hcases]
      exact pfx_append_self cc _
    rw [List.append_assoc] at hl
    simp [Codebanner.comment_pattern, hl]
  · have hb : Codebanner.blankPat (seg ++ ['\n']) = true := by
      unfold Codebanner.blankPat
      simp [List.all_append, h, (by decide : pyWs '\n' = true)]
    simp [Codebanner.comment_pattern, hb]

theorem lookup_val_mem {β : Type} (l : List (Str × β)) (k : Str) (v : β)
    (h : List.lookup k l = some v) : ∃ kv ∈ l, kv.2 = v := by
  induction l with
  | nil => simp [List.lookup] at h
  | cons a t ih =>
    obtain ⟨k', v'⟩ := a
    cases hk : k == k' with
    | true =>
      rw [List.lookup, hk] at h
      exact ⟨(k', v'), List.mem_cons_self _ _, Option.some.inj h⟩
    | false =>
      rw [List.lookup, hk] at h
      obtain ⟨kv, hmem, hv⟩ := ih h
      exact ⟨kv, List.mem_cons_of_mem _ hmem, hv⟩

theorem mapMLookup_ok_mem (authors : List (Str × Str)) (cs fs : List Str)
    (h : Codebanner.mapMLookup authors cs = .ok fs) :
    ∀ f ∈ fs, ∃ kv ∈ authors, kv.2 = f := by
  induction cs generalizing fs with
  | nil =>
    unfold Codebanner.mapMLookup at h
    obtain rfl := Except.ok.inj h
    simp
  | cons c rest ih =>
    unfold Codebanner.mapMLookup at h
    cases hl : Codebanner.lookupName authors c with
    | error e => rw [hl] at h; exact Except.noConfusion h
    | ok f0 =>
      rw [hl] at h
      cases hm : Codebanner.mapMLookup authors rest with
      | error e => rw [hm] at h; exact Except.noConfusion h
      | ok fs0 =>
        rw [hm] at h
        obtain rfl := Except.ok.inj h
        intro f hf
        rcases List.mem_cons.mp hf with rfl | hf
        · unfold Codebanner.lookupName at hl
          cases hq : List.lookup c authors with
          | none => rw [hq] at hl; exact Except.noConfusion hl
          | some v =>
            rw [hq] at hl
            obtain rfl := Except.ok.inj hl
            exact lookup_val_mem _ _ _ hq
        · exact ih fs0 hm f hf

theorem chunk_marker_segs2 (cc b : Str) (hb : noNl b) (hp : pfx cc b = true) :
    ∀ seg ∈ splitNl b, Codebanner.segOk cc seg := by
  rw [splitNl_of_noNl b hb]
  intro seg hseg
  simp only [List.mem_singleton] at hseg
  subst hseg
  left
  exact hp

theorem headerChunks_segs (P : Codebanner.Params) (cc rendered : Str) (addSh : Bool)
    (authorFull : Str) (contribFulls : List Str)
    (hcases : cc = ['/', '/'] ∨ cc = ['#'])
    (hsh : ∀ seg ∈ splitNl (Codebanner.shebang P.lang addSh), Codebanner.segOk cc seg)
    (hbase : noNl P.basename) (hproj : noNl P.project) (hrepo : noNl P.repo)
    (hlic : noNl P.license) (hown : noNl P.copyright_owner)
    (hren : noNl rendered) (haf : noNl authorFull)
    (hcf : ∀ f ∈ contribFulls, noNl f) :
    ∀ b ∈ Codebanner.headerChunks P cc rendered addSh authorFull contribFulls,
      ∀ seg ∈ splitNl b, Codebanner.segOk cc seg := by
  have hccn : noNl cc := noNl_marker cc hcases
  have hdash : noNl (['-'] : Str) := by decide
  have hspace : noNl ([' '] : Str) := by decide
  have hcolon : noNl ((" : ").data) := by decide
  have hitem : ∀ (key val : Str), noNl key → noNl val →
      ∀ seg ∈ splitNl (Codebanner.make_list_item cc 1 key val), Codebanner.segOk cc seg := by
    intro key val hkey hval
    apply chunk_marker_segs2 cc _ ?_ ?_
    · unfold Codebanner.make_list_item
      simp only [noNl_append]
      exact ⟨⟨⟨⟨⟨hccn, ⟨noNl_dropLast _ (noNl_tab 1), hdash⟩⟩,
        hspace⟩, hkey⟩, hcolon⟩, hval⟩
    · unfold Codebanner.make_list_item
      simp only [List.append_assoc]
      exact pfx_append_self cc _
  intro b hb
  unfold Codebanner.headerChunks at hb
  simp only [List.mem_append, List.mem_cons, List.not_mem_nil, or_false, false_or] at hb
  rcases hb with ((((((((hb | hb) | hb) | hb) | hb) | hb) | hb) | hb) | hb) | hb
  · -- shebang block
    by_cases ha : addSh
    · rw [if_pos ha] at hb
      rcases List.mem_cons.mp hb with rfl | hb2
      · exact hsh
      · simp only [List.mem_singleton] at hb2
        subst hb2
        intro seg hseg
        simp only [splitNl, List.mem_singleton] at hseg
        subst hseg
        exact segOk_empty cc
    · rw [if_neg ha] at hb
      exact absurd hb (List.not_mem_nil b)
  · -- title line
    subst hb
    apply chunk_marker_segs2 cc _ ?_ ?_
    · simp only [noNl_append]
      exact ⟨⟨hccn, noNl_tab 1⟩, hbase⟩
    · simp only [List.append_assoc]
      exact pfx_append_self cc _
  · -- docstring chunk
    by_cases hd : P.docstring = []
    · rw [if_pos hd] at hb
      exact absurd hb (List.not_mem_nil b)
    · rw [if_neg hd] at hb
      simp only [List.mem_singleton] at hb
      subst hb
      exact doc_chunk_segs P.docstring cc (Codebanner.tab 2) hccn (noNl_tab 2)
  · -- bare marker line
    subst hb
    exact chunk_marker_segs2 _ _ hccn (pfx_refl _)
  · -- author item
    by_cases ha : P.author = []
    · rw [if_pos ha] at hb
      exact absurd hb (List.not_mem_nil b)
    · rw [if_neg ha] at hb
      simp only [List.mem_singleton] at hb
      subst hb
      exact hitem _ _ (by decide) haf
  · -- contributors block
    by_cases hc : P.contributors = []
    · rw [if_pos hc] at hb
      exact absurd hb (List.not_mem_nil b)
    · rw [if_neg hc] at hb
      rcases List.mem_cons.mp hb with rfl | hb2
      · exact hitem _ _ (by decide) noNl_nil
      · obtain ⟨f, hf, rfl⟩ := List.mem_map.mp hb2
        apply chunk_marker_segs2 cc _ ?_ ?_
        · simp only [noNl_append]
          exact ⟨⟨⟨hccn, noNl_dropLast _ (noNl_tab 2)⟩, by decide⟩, hcf f hf⟩
        · simp only [List.append_assoc]
          exact pfx_append_self cc _
  · -- license item
    subst hb
    exact hitem _ _ (by decide) hlic
  · -- project item
    subst hb
    refine hitem _ _ (by decide) ?_
    by_cases hr : P.repo = []
    · rw [if_pos hr]
      simpa using hproj
    · rw [if_neg hr]
      simp only [noNl_append]
      exact ⟨hproj, ⟨by decide, hrepo⟩, by decide⟩
  · -- bare marker line
    subst hb
    exact chunk_marker_segs2 _ _ hccn (pfx_refl _)
  · -- copyright line
    subst hb
    apply chunk_marker_segs2 cc _ ?_ ?_
    · simp only [noNl_append]
      exact ⟨⟨⟨⟨⟨hccn, noNl_tab 1⟩, by decide⟩, hren⟩, hspace⟩, hown⟩
    · simp only [List.append_assoc]
      exact pfx_append_self cc _

theorem shebang_segs_ok (P : Codebanner.Params) (cc : Str)
    (hcc : Codebanner.comment_char P.lang = .ok cc)
    (hjs : ¬(P.lang = Codebanner.Language.JAVASCRIPT ∧ Codebanner.effAddShebang P = true)) :
    ∀ seg ∈ splitNl (Codebanner.shebang P.lang (Codebanner.effAddShebang P)),
      Codebanner.segOk cc seg := by
  cases hl : P.lang
  · -- CPP: shebang is empty
    intro seg hseg
    simp only [Codebanner.shebang, splitNl, List.mem_singleton] at hseg
    subst hseg
    exact segOk_empty cc
  · -- PYTHON
    rw [hl] at hcc
    obtain rfl := Except.ok.inj hcc
    by_cases ha : Codebanner.effAddShebang P = true
    · intro seg hseg
      rw [Codebanner.shebang, if_pos ha,
        splitNl_of_noNl _ (by decide)] at hseg
      simp only [List.mem_singleton] at hseg
      subst hseg
      left
      decide
    · intro seg hseg
      rw [Codebanner.shebang, if_neg ha] at hseg
      simp only [splitNl, List.mem_singleton] at hseg
      subst hseg
      exact segOk_empty _
  · -- JAVASCRIPT: add_shebang must be off
    have ha : Codebanner.effAddShebang P ≠ true := fun he => hjs ⟨hl, he⟩
    intro seg hseg
    rw [Codebanner.shebang, if_neg ha] at hseg
    simp only [splitNl, List.mem_singleton] at hseg
    subst hseg
    exact segOk_empty cc
  · -- TYPESCRIPT: excluded by the comment-marker dispatch
    rw [hl] at hcc
    exact Except.noConfusion hcc
  · -- BASH
    rw [hl] at hcc
    obtain rfl := Except.ok.inj hcc
    by_cases ha : Codebanner.effAddShebang P = true
    · intro seg hseg
      rw [Codebanner.shebang, if_pos ha,
        splitNl_of_noNl _ (by decide)] at hseg
      simp only [List.mem_singleton] at hseg
      subst hseg
      left
      decide
    · intro seg hseg
      rw [Codebanner.shebang, if_neg ha] at hseg
      simp only [splitNl, List.mem_singleton] at hseg
      subst hseg
      exact segOk_empty _
  · -- CMAKE: shebang is empty
    intro seg hseg
    simp only [Codebanner.shebang, splitNl, List.mem_singleton] at hseg
    subst hseg
    exact segOk_empty cc

theorem bannerOf_ok_lines (P : Codebanner.Params) (H : List Str)
    (hgood : Codebanner.GoodParams P)
    (h : Codebanner.bannerOf P = .ok H) :
    ∀ l ∈ H, (Codebanner.comment_pattern P.lang).any (fun p => p l) = true := by
  obtain ⟨hbase, hproj, hrepo, hlic, hown, hsd, hed, hauth, hjs⟩ := hgood
  cases hcc : Codebanner.comment_char P.lang with
  | error e =>
    simp only [Codebanner.bannerOf, hcc] at h
    exact Except.noConfusion h
  | ok cc =>
    simp only [Codebanner.bannerOf, hcc] at h
    cases hb : Codebanner.buildNewHeader P cc
        (Codebanner.renderedDate P.copyright_start_date P.copyright_end_date P.fallbackYear)
        (Codebanner.effAddShebang P) with
    | error e => rw [hb] at h; exact Except.noConfusion h
    | ok nh =>
      rw [hb] at h
      obtain rfl := Except.ok.inj h
      -- extract the resolved names from buildNewHeader
      unfold Codebanner.buildNewHeader at hb
      have hsegs : ∀ seg ∈ splitNl nh, Codebanner.segOk cc seg := by
        cases haf : (if P.author = [] then Except.ok ([] : Str)
            else Codebanner.lookupName P.authors P.author) with
        | error e => rw [haf] at hb; exact Except.noConfusion hb
        | ok authorFull =>
          rw [haf] at hb
          cases hcf : (if P.contributors = [] then Except.ok ([] : List Str)
              else Codebanner.mapMLookup P.authors P.contributors) with
          | error e => rw [hcf] at hb; exact Except.noConfusion hb
          | ok contribFulls =>
            rw [hcf] at hb
            obtain rfl := (Except.ok.inj hb).symm
            have hafn : noNl authorFull := by
              by_cases ha : P.author = []
              · rw [if_pos ha] at haf
                obtain rfl := Except.ok.inj haf
                exact noNl_nil
              · rw [if_neg ha] at haf
                unfold Codebanner.lookupName at haf
                cases hq : List.lookup P.author P.authors with
                | none => rw [hq] at haf; exact Except.noConfusion haf
                | some v =>
                  rw [hq] at haf
                  obtain rfl := Except.ok.inj haf
                  obtain ⟨kv, hkv, hkv2⟩ := lookup_val_mem _ _ _ hq
                  rw [← hkv2]
                  exact hauth kv hkv
            have hcfn : ∀ f ∈ contribFulls, noNl f := by
              by_cases hc : P.contributors = []
              · rw [if_pos hc] at hcf
                obtain rfl := Except.ok.inj hcf
                simp
              · rw [if_neg hc] at hcf
                intro f hf
                obtain ⟨kv, hkv, hkv2⟩ := mapMLookup_ok_mem _ _ _ hcf f hf
                rw [← hkv2]
                exact hauth kv hkv
            apply joinLines_segs_ok
            exact headerChunks_segs P cc _ (Codebanner.effAddShebang P) authorFull
              contribFulls (comment_char_cases _ _ hcc)
              (shebang_segs_ok P cc hcc hjs) hbase hproj hrepo hlic hown
              (noNl_renderedDate _ _ _ hsd hed) hafn hcfn
      intro l hl
      obtain ⟨seg, hseg, rfl⟩ := List.mem_map.mp hl
      exact banner_line_matches P.lang cc seg hcc (hsegs seg hseg)

/- ===================== Lemmas: scan, removal, insertion ===================== -/

theorem scanHeaderAux_skipDone (cp : List (Str → Bool)) (lines : List Str) :
    ∀ n s c, Codebanner.scanHeaderAux [] cp lines n s c true = (s, c + leadCount cp lines) := by
  induction lines with
  | nil => intro n s c; simp [Codebanner.scanHeaderAux, leadCount]
  | cons l rest ih =>
    intro n s c
    unfold Codebanner.scanHeaderAux
    simp only [List.any_nil, Bool.and_false, Bool.not_true, Bool.false_and,
      Bool.false_eq_true, if_false, if_true]
    by_cases h : (cp.any fun p => p l) = true
    · rw [if_pos h, ih]
      simp [leadCount, h]
      omega
    · rw [if_neg h]
      simp [leadCount, h]

theorem scanHeader_no_skip (cp : List (Str → Bool)) (lines : List Str) :
    Codebanner.scanHeader [] cp lines = (0, leadCount cp lines) := by
  unfold Codebanner.scanHeader
  cases lines with
  | nil => simp [Codebanner.scanHeaderAux, leadCount]
  | cons l rest =>
    unfold Codebanner.scanHeaderAux
    simp only [List.any_nil, Bool.and_false, Bool.not_false, Bool.true_and,
      Bool.false_eq_true, if_false]
    by_cases h : (cp.any fun p => p l) = true
    · rw [if_pos h, scanHeaderAux_skipDone]
      simp [leadCount, h]
      omega
    · rw [if_neg h]
      simp [leadCount, h]

theorem popN_zero (c : Nat) (l : List Str) : Codebanner.popN 0 c l = l.drop c := by
  induction c generalizing l with
  | zero => rfl
  | succ c ih =>
    unfold Codebanner.popN
    rw [ih]
    cases l with
    | nil => simp
    | cons a t => simp [List.eraseIdx]

theorem insertHeader_zero (segs body : List Str) :
    Codebanner.insertHeader 0 segs body = segs.map (fun seg => seg ++ ['\n']) ++ body := by
  unfold Codebanner.insertHeader
  rw [List.foldl_reverse]
  induction segs with
  | nil => rfl
  | cons s rest ih =>
    simp only [List.insertIdx_zero] at ih ⊢
    simp [List.foldr_cons, ih]

theorem skip_patterns_nil (lang : Codebanner.Language) (cc : Str)
    (h : Codebanner.comment_char lang = .ok cc) : Codebanner.skip_patterns lang = [] := by
  cases lang
  · rfl
  · rfl
  · rfl
  · exact Except.noConfusion h
  · rfl
  · rfl

theorem write_docstring_char (P : Codebanner.Params) (lines : List Str) :
    Codebanner.write_docstring P lines =
      (Codebanner.bannerOf P).map
        (fun H => H ++ lines.drop (leadCount (Codebanner.comment_pattern P.lang) lines)) := by
  cases hcc : Codebanner.comment_char P.lang with
  | error e =>
    simp only [Codebanner.write_docstring, Codebanner.bannerOf, hcc, Except.map]
  | ok cc =>
    have hsp := skip_patterns_nil P.lang cc hcc
    cases hb : Codebanner.buildNewHeader P cc
        (Codebanner.renderedDate P.copyright_start_date P.copyright_end_date P.fallbackYear)
        (Codebanner.effAddShebang P) with
    | error e =>
      simp only [Codebanner.write_docstring, Codebanner.bannerOf, hcc, hb, Except.map]
    | ok nh =>
      simp only [Codebanner.write_docstring, Codebanner.bannerOf, hcc, hb, Except.map,
        hsp, scanHeader_no_skip, popN_zero, insertHeader_zero]

/- ===================== Lemmas: leading comment block ===================== -/

theorem leadCount_append_all (ps : List (Str → Bool)) (H rest : List Str)
    (h : ∀ l ∈ H, ps.any (fun p => p l) = true) :
    leadCount ps (H ++ rest) = H.length + leadCount ps rest := by
  induction H with
  | nil => simp [leadCount]
  | cons l t ih =>
    have hl := h l (List.mem_cons_self _ _)
    have ht := ih (fun x hx => h x (List.mem_cons_of_mem _ hx))
    simp [leadCount, hl, ht]
    omega

theorem leadCount_drop_not (ps : List (Str → Bool)) (lines : List Str) :
    lines.drop (leadCount ps lines) = [] ∨
    ∃ l rest, lines.drop (leadCount ps lines) = l :: rest ∧
      (ps.any fun p => p l) = false := by
  induction lines with
  | nil => left; rfl
  | cons l t ih =>
    by_cases h : (ps.any fun p => p l) = true
    · have : leadCount ps (l :: t) = leadCount ps t + 1 := by simp [leadCount, h]
      rw [this, List.drop_succ_cons]
      exact ih
    · right
      refine ⟨l, t, ?_, by simpa using h⟩
      have : leadCount ps (l :: t) = 0 := by simp [leadCount, h]
      rw [this]
      rfl

theorem leadCount_drop_zero (ps : List (Str → Bool)) (lines : List Str) :
    leadCount ps (lines.drop (leadCount ps lines)) = 0 := by
  rcases leadCount_drop_not ps lines with h | ⟨l, rest, heq, hf⟩
  · rw [h]; rfl
  · rw [heq]
    simp [leadCount, hf]

/- ===================== Claims C7 and C1 ===================== -/

/-- Claim C7: write_docstring never alters any line after the detected
header region - for every input whose rewrite succeeds, the input's body
suffix (every line after the leading run of comment and blank lines, the
first non-comment non-blank line onward) is a byte-identical suffix of the
output.  The successful languages have no skip patterns, so the preserved
skip prefix is empty. -/
theorem claim_C7_header_isolation (P : Codebanner.Params) (lines out : List Str)
    (h : Codebanner.write_docstring P lines = .ok out) :
    List.IsSuffix (lines.drop (leadCount (Codebanner.comment_pattern P.lang) lines)) out := by
  rw [write_docstring_char] at h
  cases hb : Codebanner.bannerOf P with
  | error e => rw [hb] at h; exact Except.noConfusion h
  | ok H =>
    rw [hb] at h
    simp only [Except.map] at h
    obtain rfl := (Except.ok.inj h).symm
    exact ⟨H, rfl⟩

/-- Witness for C7: the concrete Python rewrite keeps its one-line body as
a suffix. -/
theorem claim_C7_header_isolation_witness :
    List.IsSuffix
      ([Codebanner.bodyLine].drop
        (leadCount (Codebanner.comment_pattern Codebanner.pyParams.lang) [Codebanner.bodyLine]))
      Codebanner.pyOut :=
  claim_C7_header_isolation Codebanner.pyParams _ _ (by decide)

/-- Claim C1 amended: the rewrite is idempotent for every file content and
every banner configuration whose rendered string fields (basename,
project, repo, license, owner, the two copyright dates and the author
full names) contain no newline character and whose add_shebang option is
not in effect for a JavaScript file, whenever the rewrite succeeds:
rewriting the output once more returns it unchanged, byte for byte. -/
theorem claim_C1_idempotent (P : Codebanner.Params) (lines out : List Str)
    (hgood : Codebanner.GoodParams P)
    (h : Codebanner.write_docstring P lines = .ok out) :
    Codebanner.write_docstring P out = .ok out := by
  have hc := write_docstring_char P lines
  rw [h] at hc
  cases hb : Codebanner.bannerOf P with
  | error e => rw [hb] at hc; exact Except.noConfusion hc.symm
  | ok H =>
    rw [hb] at hc
    simp only [Except.map] at hc
    have hout : out = H ++ lines.drop (leadCount (Codebanner.comment_pattern P.lang) lines) :=
      Except.ok.inj hc
    have hall := bannerOf_ok_lines P H hgood hb
    have hlead : leadCount (Codebanner.comment_pattern P.lang) out = H.length := by
      rw [hout, leadCount_append_all _ _ _ hall, leadCount_drop_zero]
      omega
    rw [write_docstring_char P out, hb]
    simp only [Except.map, hlead]
    rw [hout, List.drop_left]

/-- Witness for C1 amended at the concrete Python parameters: the second
rewrite of the produced file returns it unchanged. -/
theorem claim_C1_idempotent_witness :
    Codebanner.write_docstring Codebanner.pyParams Codebanner.pyOut = .ok Codebanner.pyOut :=
  claim_C1_idempotent Codebanner.pyParams [Codebanner.bodyLine] Codebanner.pyOut
    (by decide) (by decide)

/- ===================== Lemmas: word wrap ===================== -/

theorem pyStrip_length_le (s : Str) : (pyStrip s).length ≤ s.length := by
  unfold pyStrip
  rw [List.length_reverse]
  calc ((s.dropWhile pyWs).reverse.dropWhile pyWs).length
      ≤ (s.dropWhile pyWs).reverse.length := (List.dropWhile_suffix pyWs).length_le
    _ = (s.dropWhile pyWs).length := List.length_reverse _
    _ ≤ s.length := (List.dropWhile_suffix pyWs).length_le

theorem pyStrip_snoc_ws (x : Str) (c : Char) (hc : pyWs c = true) :
    pyStrip (x ++ [c]) = pyStrip x := by
  unfold pyStrip
  rw [List.dropWhile_append]
  by_cases h : (x.dropWhile pyWs).isEmpty
  · rw [if_pos h]
    have hx : x.dropWhile pyWs = [] := List.isEmpty_iff.mp h
    rw [hx]
    simp [List.dropWhile_cons, hc]
  · rw [if_neg h]
    rw [List.reverse_append]
    simp [List.dropWhile_cons, hc]

theorem Codebanner.findNl_take (s : Str) (n : Nat) (h : Codebanner.findNl s = some n) :
    s.take (n + 1) = s.take n ++ ['\n'] ∧ n < s.length := by
  induction s generalizing n with
  | nil => simp [Codebanner.findNl] at h
  | cons c t ih =>
    by_cases hc : c = '\n'
    · subst hc
      rw [Codebanner.findNl, if_pos rfl] at h
      obtain rfl := Option.some.inj h
      simp
    · rw [Codebanner.findNl, if_neg hc] at h
      cases hf : Codebanner.findNl t with
      | none => rw [hf] at h; simp at h
      | some m =>
        rw [hf] at h
        have hn : m + 1 = n := by simpa using h
        subst hn
        obtain ⟨ht, hm⟩ := ih m hf
        refine ⟨?_, by simpa using Nat.succ_lt_succ hm⟩
        simp [List.take_succ] at ht ⊢
        simp [List.take_cons, ht]

theorem Codebanner.findBreakGo_spec (ds : Str) : ∀ fuel j0, ds.length ≤ j0 + fuel →
    j0 ≤ Codebanner.findBreakGo ds j0 fuel ∧
    ∀ i, j0 ≤ i → i < Codebanner.findBreakGo ds j0 fuel →
      i < ds.length ∧ ds.getD i 'x' ≠ ' ' ∧ ds.getD i 'x' ≠ '\n' := by
  intro fuel
  induction fuel with
  | zero =>
    intro j0 hlen
    constructor
    · exact Nat.le_refl _
    · intro i h1 h2
      exact absurd (Nat.lt_of_le_of_lt h1 h2) (Nat.lt_irrefl _)
  | succ fuel ih =>
    intro j0 hlen
    unfold Codebanner.findBreakGo
    by_cases h1 : ds.length ≤ j0
    · rw [if_pos h1]
      exact ⟨Nat.le_refl _, fun i hi1 hi2 =>
        absurd (Nat.lt_of_le_of_lt hi1 hi2) (Nat.lt_irrefl _)⟩
    · rw [if_neg h1]
      by_cases h2 : ds.getD j0 'x' = ' ' ∨ ds.getD j0 'x' = '\n'
      · rw [if_pos h2]
        exact ⟨Nat.le_refl _, fun i hi1 hi2 =>
          absurd (Nat.lt_of_le_of_lt hi1 hi2) (Nat.lt_irrefl _)⟩
      · rw [if_neg h2]
        obtain ⟨hle, hspec⟩ := ih (j0 + 1) (by omega)
        push_neg at h2
        refine ⟨Nat.le_trans (Nat.le_succ j0) hle, ?_⟩
        intro i hi1 hi2
        rcases Nat.eq_or_lt_of_le hi1 with rfl | hlt
        · exact ⟨Nat.lt_of_not_le h1, h2.1, h2.2⟩
        · exact hspec i hlt hi2

theorem pyStrip_pfx_dropWhile (s : Str) :
    List.IsPrefix (pyStrip s) (s.dropWhile pyWs) := by
  unfold pyStrip
  rw [← List.reverse_suffix]
  simpa using List.dropWhile_suffix (l := (s.dropWhile pyWs).reverse) pyWs

theorem dropWhile_eq_drop (s : Str) :
    s.dropWhile pyWs = s.drop (s.takeWhile pyWs).length := by
  have h := List.takeWhile_append_dropWhile pyWs s
  calc s.dropWhile pyWs
      = List.drop (s.takeWhile pyWs).length (s.takeWhile pyWs ++ s.dropWhile pyWs) :=
        (List.drop_left _ _).symm
    _ = s.drop (s.takeWhile pyWs).length := by rw [h]

theorem mem_pyStrip_drop (s : Str) (n : Nat) (c : Char)
    (h : c ∈ (pyStrip s).drop n) : c ∈ s.drop n := by
  have h1 : (pyStrip s).drop n <+: (s.dropWhile pyWs).drop n :=
    (pyStrip_pfx_dropWhile s).drop n
  have h2 : c ∈ (s.dropWhile pyWs).drop n := h1.subset h
  rw [dropWhile_eq_drop, List.drop_drop] at h2
  have h3 : s.drop ((s.takeWhile pyWs).length + n) = (s.drop n).drop
      (s.takeWhile pyWs).length := by
    rw [List.drop_drop]
    congr 1
    omega
  rw [h3] at h2
  exact List.drop_subset _ _ h2

theorem mem_dropLast_cons {α : Type} (a : α) (t : List α) (x : α)
    (h : x ∈ (a :: t).dropLast) : x = a ∨ x ∈ t.dropLast := by
  cases t with
  | nil => simp at h
  | cons b m =>
    rw [List.dropLast_cons₂, List.mem_cons] at h
    exact h

theorem wrapGo_mid_lines (fuel : Nat) : ∀ ds : Str, ds.length < fuel →
    ∀ l ∈ (Codebanner.wrapGo fuel ds).dropLast, ∀ c ∈ l.drop 80,
      c ≠ ' ' ∧ c ≠ '\n' := by
  induction fuel with
  | zero =>
    intro ds h
    exact absurd h (Nat.not_lt_zero _)
  | succ fuel ih =>
    intro ds hlen l hl c hc
    unfold Codebanner.wrapGo at hl
    by_cases h80 : ds.length ≤ 80
    · rw [if_pos h80] at hl
      simp at hl
    · rw [if_neg h80] at hl
      have hcase2 :
          l ∈ (if ds.length ≤ Codebanner.findBreak ds then [ds]
               else pyStrip (ds.take (Codebanner.findBreak ds)) ::
                 Codebanner.wrapGo fuel (ds.drop (Codebanner.findBreak ds))).dropLast →
          c ≠ ' ' ∧ c ≠ '\n' := by
        intro hl2
        obtain ⟨hj80, hspec⟩ :=
          Codebanner.findBreakGo_spec ds ds.length 80 (by omega)
        have hjdef : Codebanner.findBreak ds = Codebanner.findBreakGo ds 80 ds.length := rfl
        by_cases hj : ds.length ≤ Codebanner.findBreak ds
        · rw [if_pos hj] at hl2
          simp at hl2
        · rw [if_neg hj] at hl2
          rcases mem_dropLast_cons _ _ _ hl2 with rfl | hl3
          · have hc2 : c ∈ (ds.take (Codebanner.findBreak ds)).drop 80 :=
              mem_pyStrip_drop _ _ _ hc
            obtain ⟨i, hi, hceq⟩ := List.mem_iff_getElem.mp hc2
            have hjlt : Codebanner.findBreak ds < ds.length := Nat.lt_of_not_le hj
            have hlen2 : (ds.take (Codebanner.findBreak ds)).length =
                Codebanner.findBreak ds := by
              rw [List.length_take]
              omega
            have hibound : 80 + i < Codebanner.findBreak ds := by
              rw [List.length_drop, hlen2] at hi
              omega
            have hib2 : 80 + i < ds.length := by omega
            have hcval : c = ds.getD (80 + i) 'x' := by
              rw [← hceq, List.getElem_drop, List.getElem_take, List.getD_eq_getElem]
            obtain ⟨_, hs, hn⟩ := hspec (80 + i) (by omega) (by rw [← hjdef]; exact hibound)
            rw [hcval]
            exact ⟨hs, hn⟩
          · have hfl : (ds.drop (Codebanner.findBreak ds)).length < fuel := by
              rw [List.length_drop]
              omega
            exact ih _ hfl l hl3 c hc
      cases hf : Codebanner.findNl ds with
      | some nlb =>
        simp only [hf] at hl
        by_cases hn : nlb ≤ 80
        · rw [if_pos hn] at hl
          rcases mem_dropLast_cons _ _ _ hl with rfl | hl3
          · obtain ⟨htake, hnlt⟩ := Codebanner.findNl_take ds nlb hf
            have hlenl : (pyStrip (ds.take (nlb + 1))).length ≤ 80 := by
              rw [htake, pyStrip_snoc_ws _ _ (by decide)]
              calc (pyStrip (ds.take nlb)).length
                  ≤ (ds.take nlb).length := pyStrip_length_le _
                _ ≤ nlb := by rw [List.length_take]; omega
                _ ≤ 80 := hn
            rw [List.drop_eq_nil_of_le hlenl] at hc
            exact absurd hc (List.not_mem_nil c)
          · have hfl : (ds.drop (nlb + 1)).length < fuel := by
              rw [List.length_drop]
              omega
            exact ih _ hfl l hl3 c hc
        · rw [if_neg hn] at hl
          exact hcase2 hl
      | none =>
        simp only [hf] at hl
        exact hcase2 hl

/- ===================== Claim C4 ===================== -/

/-- Counterexample to claim C4 as stated: for a description whose first
space lies past column 80, the wrapper emits a first line of 85
characters, longer than 80, and it is not the last produced line. -/
theorem claim_C4_counterexample :
    ¬ (∀ l ∈ (Codebanner.wrapLines Codebanner.c4doc).dropLast, l.length ≤ 80) := by
  decide

/-- Claim C4 amended: the wrapper breaks at the first newline at-or-before
column 80 when the chunk has one, and otherwise scans forward from column
80 to the next space or newline; consequently a produced line may exceed
80 characters, and every produced line except possibly the last carries no
space and no newline at or beyond column 80 (character positions 80 and
later of such a line hold only other characters). -/
theorem claim_C4_wrap_break (ds l : Str)
    (hl : l ∈ (Codebanner.wrapLines ds).dropLast)
    (c : Char) (hc : c ∈ l.drop 80) : c ≠ ' ' ∧ c ≠ '\n' :=
  wrapGo_mid_lines (ds.length + 1) ds (Nat.lt_succ_self _) l hl c hc

/-- Witness for C4 amended on the concrete long docstring: the 85-letter
first line is a non-final produced line and its characters past column 80
are neither spaces nor newlines. -/
theorem claim_C4_wrap_break_witness :
    List.replicate 85 'a' ∈ (Codebanner.wrapLines Codebanner.c4doc).dropLast ∧
      (('a' : Char) ≠ ' ' ∧ ('a' : Char) ≠ '\n') :=
  ⟨by decide,
    claim_C4_wrap_break Codebanner.c4doc (List.replicate 85 'a') (by decide) 'a' (by decide)⟩
